import Mathlib

/-!
Verification of the grazer revalidation queue and controller.

The definitions below are a shallow embedding of the Go sources:

* `queue.go` — the deduplicating priority queue (`queue`, `queueItem`,
  `enqueue`, `pop`, `_addOrUpdate`, `queueItems.Less`).
* `grazer.go` — the controller (`controller.revalidate`,
  `controller.ensureProcessQueue`, `controller.shutdownAndWait`,
  `controller.run`, `controller.queuePopBatch`).

Modelling conventions:

* Go `uint64` is modelled as `Nat`; the one arithmetic operation that can
  overflow (`currentPriority++` in `enqueue`) is taken modulo `2^64`.
* The Go heap (`container/heap` standard library) maintained via
  `heap.Init/Push/Fix` with the `queueItems.Less` order has the contract that
  `heap.Pop` removes and returns a least element under `Less`.  The embedding
  keeps the queue's item multiset as a plain list and `pop` removes a least
  element under the same `Less` order (`lessItem` below, translated verbatim
  from `queueItems.Less`).  The `index` bookkeeping field of `queueItem`,
  which only serves the heap's `Fix`/`Swap` plumbing, is dropped.
* The `pathIdx` map of the Go queue holds exactly the live items keyed by
  `routePath`; it is modelled by `lookupPath`, a search of the item list by
  key.  On every state the Go code can reach the key set is duplicate-free
  (proved below), so the two agree.
-/

namespace Grazer

/-- Byte/codepoint-wise lexicographic order on character lists; Go's `<` on
strings is bytewise lexicographic over UTF-8, which coincides with
codepoint-lexicographic order. -/
def strLtb : List Char → List Char → Bool
  | [], [] => false
  | [], _ :: _ => true
  | _ :: _, [] => false
  | a :: as, b :: bs =>
    if a.toNat < b.toNat then true
    else if b.toNat < a.toNat then false
    else strLtb as bs

/-- Go string comparison `a < b`. -/
def strLt (a b : String) : Bool :=
  strLtb a.data b.data

/-- `queueItem` from queue.go (the heap `index` field is bookkeeping only and
is not part of the model). `priority` is the Go `uint64` field: a lower
non-zero value means higher priority, `0` means no priority. -/
structure QItem where
  priority : Nat
  routePath : String
deriving DecidableEq, Repr

/-- `queue` from queue.go: the generation counter `currentPriority` and the
list of live items (the heap's multiset of elements). -/
structure Queue where
  currentPriority : Nat
  items : List QItem
deriving DecidableEq, Repr

/-- `2^64`, the modulus of Go's `uint64` arithmetic. -/
def u64 : Nat := 2 ^ 64

/-- `newQueue` from queue.go: empty heap, empty path index, zero counter. -/
def newQueue : Queue :=
  { currentPriority := 0, items := [] }

/-- The `pathIdx` lookup: the live item for key `k`, if any. -/
def lookupPath (q : Queue) (k : String) : Option QItem :=
  q.items.find? (fun e => e.routePath == k)

/-- `queueItems.Less` from queue.go, translated clause by clause: equal
priorities compare by route path; priority `0` sorts last; otherwise lower
numeric priority sorts first. -/
def lessItem (a b : QItem) : Bool :=
  if a.priority = b.priority then strLt a.routePath b.routePath
  else if a.priority = 0 then false
  else if b.priority = 0 then true
  else a.priority < b.priority

/-- `_addOrUpdate` from queue.go: if the key is present, promote it only when
it had zero priority and the new priority is non-zero (the promotion mutates
the one indexed item; `heap.Fix` merely re-balances); otherwise push a fresh
item and index it. -/
def addOrUpdate (q : Queue) (routePath : String) (prio : Nat) : Queue :=
  match lookupPath q routePath with
  | some existingItem =>
    if existingItem.priority = 0 ∧ prio ≠ 0 then
      { q with items := q.items.map (fun e =>
          if e.routePath == routePath then { e with priority := prio } else e) }
    else q
  | none =>
    { q with items := q.items ++ [{ priority := prio, routePath := routePath }] }

/-- `enqueue` from queue.go: bump the generation counter (uint64 increment),
add every invalidated path with the fresh generation as priority, then every
background path with priority `0`. -/
def enqueue (q : Queue) (invalidatedRoutePaths allRoutePaths : List String) : Queue :=
  let c := (q.currentPriority + 1) % u64
  let q1 := { q with currentPriority := c }
  let q2 := invalidatedRoutePaths.foldl (fun qq p => addOrUpdate qq p c) q1
  allRoutePaths.foldl (fun qq p => addOrUpdate qq p 0) q2

/-- Select a least element under `lessItem` from `x :: l`, returning it
together with the remaining elements. This is the observable effect of
`heap.Pop` on the heap's element multiset. -/
def selectMin (x : QItem) : List QItem → QItem × List QItem
  | [] => (x, [])
  | y :: ys =>
    if lessItem y x then ((selectMin y ys).1, x :: (selectMin y ys).2)
    else ((selectMin x ys).1, y :: (selectMin x ys).2)

/-- `pop` from queue.go: `nil` on an empty queue, otherwise remove the least
item under `Less` from the heap, delete it from the path index, and return
its route path. -/
def pop (q : Queue) : Option (String × Queue) :=
  match q.items with
  | [] => none
  | x :: xs =>
    some ((selectMin x xs).1.routePath, { q with items := (selectMin x xs).2 })

/-- The queue's core invariant: at most one live item per route path. -/
def keysNodup (q : Queue) : Prop :=
  (q.items.map (fun e => e.routePath)).Nodup

instance (q : Queue) : Decidable (keysNodup q) := by
  unfold keysNodup; infer_instance

end Grazer

namespace Grazer

/-- Fuel-bounded drain loop: pop until empty or out of fuel, collecting the
returned route paths. With fuel at least the number of live items this is the
full drain order of the queue. -/
def drainFuel : Nat → Queue → List String
  | 0, _ => []
  | n + 1, q =>
    match pop q with
    | none => []
    | some (k, q') => k :: drainFuel n q'

/-- Keep the first occurrence of every key, dropping later duplicates. -/
def dedupFirstAux (seen : List String) : List String → List String
  | [] => []
  | x :: xs =>
    if x ∈ seen then dedupFirstAux seen xs
    else x :: dedupFirstAux (x :: seen) xs

/-- A list with later duplicate occurrences removed. -/
def dedupFirst (l : List String) : List String :=
  dedupFirstAux [] l

/-- An operation on the queue: an `enqueue` call or a `pop` call. -/
inductive Op where
  | enq (inv bg : List String)
  | dq

/-- Run a sequence of queue operations. -/
def runOps : Queue → List Op → Queue
  | q, [] => q
  | q, .enq inv bg :: rest => runOps (enqueue q inv bg) rest
  | q, .dq :: rest =>
    match pop q with
    | none => runOps q rest
    | some (_, q') => runOps q' rest

/-- The keys returned by the pop calls of an operation sequence, in order. -/
def popsOf : Queue → List Op → List String
  | _, [] => []
  | q, .enq inv bg :: rest => popsOf (enqueue q inv bg) rest
  | q, .dq :: rest =>
    match pop q with
    | none => popsOf q rest
    | some (k, q') => k :: popsOf q' rest

/-- The number of enqueue calls in an operation sequence. -/
def countEnq : List Op → Nat
  | [] => 0
  | .enq _ _ :: rest => countEnq rest + 1
  | .dq :: rest => countEnq rest

/-- The queue states reachable from `newQueue` by enqueue and pop calls. -/
inductive Reachable : Queue → Prop
  | init : Reachable newQueue
  | enq (q : Queue) (inv bg : List String) : Reachable q → Reachable (enqueue q inv bg)
  | popped (q : Queue) (k : String) (q' : Queue) :
      Reachable q → pop q = some (k, q') → Reachable q'

/-- `revalidateRequestDocument` from grazer.go. -/
structure RevalidateRequestDocument where
  routePath : String
deriving DecidableEq, Repr

/-- `DocumentsItem` from grazer.go. -/
structure DocumentsItem where
  routePath : String
deriving DecidableEq, Repr

/-- `DocumentsResponse` from grazer.go. -/
structure DocumentsResponse where
  documents : List DocumentsItem
deriving DecidableEq, Repr

/-- The worker goroutine's control position in `controller.run` (grazer.go):
blocked at the outer receive on `c.sig`; at the top of the inner drain loop
(about to run the non-blocking closed-check select); having observed an empty
batch and left the inner loop but not yet blocked on the outer receive again;
about to submit a popped batch via `Revalidator.Revalidate`; or returned. -/
inductive WPC where
  | outerWait
  | innerTop
  | preWait
  | submitting (batch : List String)
  | stopped
deriving DecidableEq, Repr

/-- The controller state relevant to the queue/worker coordination: the
queue, whether `close(c.sig)` has happened, the worker's control position,
and `revalidateBatchSize`. `c.sig` is an unbuffered channel
(`make(chan struct{})` in `newController`), so it holds no buffered token:
a try-send can only succeed by rendezvous with the worker blocked at the
outer receive. -/
structure CState where
  q : Queue
  closed : Bool
  wpc : WPC
  revalidateBatchSize : Nat
deriving DecidableEq, Repr

/-- The controller state right after `newController`: empty queue, open
signal channel, worker blocked at the outer receive. -/
def initialCState (batchSize : Nat) : CState :=
  { q := newQueue, closed := false, wpc := .outerWait, revalidateBatchSize := batchSize }

/-- `controller.ensureProcessQueue` from grazer.go: a non-blocking try-send
on `c.sig`. If the channel is closed, the send case of the select proceeds by
panicking (Go semantics: a send on a closed channel panics, and a ready send
case is preferred over `default`); the panic is the `Except.error`. If the
worker is blocked at the outer receive, the rendezvous succeeds and the
worker enters the inner drain loop; otherwise no receiver is ready and the
signal is dropped (`default` branch). -/
def ensureProcessQueue (s : CState) : Except String CState :=
  if s.closed then .error "send on closed channel"
  else if s.wpc = .outerWait then .ok { s with wpc := .innerTop }
  else .ok s

/-- The `close(c.sig)` step of `controller.shutdownAndWait` from grazer.go.
Closing an already-closed channel panics (the `Except.error`). -/
def closeSig (s : CState) : Except String CState :=
  if s.closed then .error "close of closed channel"
  else .ok { s with closed := true }

/-- `controller.queuePopBatch` from grazer.go: pop until the queue is empty
or the batch reaches `revalidateBatchSize` items. The loop is bounded by the
number of live items, passed here as fuel (each pop removes one item, and the
loop stops at the first empty pop). -/
def queuePopBatch : Nat → Queue → Nat → List String × Queue
  | 0, q, _ => ([], q)
  | fuel + 1, q, batchSize =>
    match pop q with
    | none => ([], q)
    | some (k, q') =>
      if 1 = batchSize then ([k], q')
      else
        let p := queuePopBatch fuel q' (batchSize - 1)
        (k :: p.1, p.2)

/-- One autonomous step of the worker goroutine (`controller.run`,
grazer.go). At the outer receive the worker only moves on its own if the
channel is closed (`ok = false`, return); with the channel open it is blocked
and can only be moved by a rendezvous in `ensureProcessQueue`. At the top of
the inner loop the select observes a closed channel and returns, or falls to
`default` and pops a batch: an empty batch breaks out towards the outer
receive, a non-empty batch is submitted to the revalidator (whose success or
logged failure does not affect this state) and the loop continues. -/
def workerStep (s : CState) : Option CState :=
  match s.wpc with
  | .outerWait =>
    if s.closed then some { s with wpc := .stopped } else none
  | .innerTop =>
    if s.closed then some { s with wpc := .stopped }
    else
      let p := queuePopBatch s.q.items.length s.q s.revalidateBatchSize
      if p.1 = [] then some { s with q := p.2, wpc := .preWait }
      else some { s with q := p.2, wpc := .submitting p.1 }
  | .preWait => some { s with wpc := .outerWait }
  | .submitting _ => some { s with wpc := .innerTop }
  | .stopped => none

/-- The enqueue-then-wake tail of `controller.revalidate` (grazer.go):
`c.queue.enqueue(...)` followed by `c.ensureProcessQueue()`. -/
def enqueueWake (s : CState) (inv bg : List String) : Except String CState :=
  ensureProcessQueue { s with q := enqueue s.q inv bg }

/-- `controller.revalidate` from grazer.go, with the inventory fetch's
outcome passed in as `fetchResult`. On a fetch error the call returns the
wrapped error at once and touches nothing. Otherwise it maps the invalidated
documents and the fetched documents to their route paths, enqueues both
lists, and signals the worker. The first component of the result pair is the
error value returned to the caller (`nil` on success); the outer `Except` is
a runtime panic (possible only in the wake signal, see
`ensureProcessQueue`). -/
def revalidateStep (s : CState) (fetchResult : Except String DocumentsResponse)
    (invalidatedDocuments : List RevalidateRequestDocument) :
    Except String (Option String × CState) :=
  match fetchResult with
  | .error err => .ok (some ("listing documents: " ++ err), s)
  | .ok documentsResponse =>
    let invalidatedRoutePaths := invalidatedDocuments.map (fun d => d.routePath)
    let allRoutePaths := documentsResponse.documents.map (fun d => d.routePath)
    match enqueueWake s invalidatedRoutePaths allRoutePaths with
    | .ok s2 => .ok (none, s2)
    | .error e => .error e

/-- A scheduled event of the concurrent system: a completed
enqueue-plus-wake (from `controller.revalidate`), one autonomous worker
step, or the shutdown close. -/
inductive Ev where
  | enq (inv bg : List String)
  | wstep
  | close

/-- Run a schedule of events. A `wstep` for a blocked worker is a no-op (the
scheduler cannot advance a blocked goroutine); an event that panics aborts
the run with the panic message. -/
def runEvents (s : CState) : List Ev → Except String CState
  | [] => .ok s
  | .enq inv bg :: rest =>
    match enqueueWake s inv bg with
    | .ok s' => runEvents s' rest
    | .error e => .error e
  | .wstep :: rest =>
    runEvents (match workerStep s with | some s' => s' | none => s) rest
  | .close :: rest =>
    match closeSig s with
    | .ok s' => runEvents s' rest
    | .error e => .error e

/-- The key returned by a pop, without the resulting queue. -/
def popKey (q : Queue) : Option String :=
  (pop q).map Prod.fst

/-- The queue left behind by a pop (unchanged when the queue was empty). -/
def popRest (q : Queue) : Queue :=
  match pop q with
  | none => q
  | some (_, q') => q'

/-- A concrete queue holding "/a" at priority 1 (used as a witness input). -/
def qMono : Queue :=
  { currentPriority := 1, items := [{ priority := 1, routePath := "/a" }] }

/-- The single entry of `qMono`. -/
def eMono : QItem :=
  { priority := 1, routePath := "/a" }

/-- A concrete queue with a backlog entry and two prioritized entries (used
as a witness input). -/
def qMix : Queue :=
  { currentPriority := 2,
    items := [{ priority := 0, routePath := "/z" },
              { priority := 2, routePath := "/b" },
              { priority := 1, routePath := "/a" }] }

/-- The controller state produced by the lost-wakeup schedule: the queue
holds "/b" at priority 2, the channel is open, and the worker is blocked at
the outer receive. -/
def lostWakeState : CState :=
  { q := { currentPriority := 2, items := [{ priority := 2, routePath := "/b" }] },
    closed := false, wpc := WPC.outerWait, revalidateBatchSize := 1 }

/-- The controller state right after a first shutdown of `initialCState 1`. -/
def closedCState : CState :=
  { q := newQueue, closed := true, wpc := WPC.outerWait, revalidateBatchSize := 1 }

end Grazer

namespace Grazer

/-! Order lemmas for the composite `Less` order of queue.go. -/

theorem strLtb_irrefl (l : List Char) : strLtb l l = false := by
  induction l with
  | nil => rfl
  | cons a as ih => simp [strLtb, ih]

theorem strLtb_trans {a b c : List Char} (h1 : strLtb a b = true) (h2 : strLtb b c = true) :
    strLtb a c = true := by
  induction a generalizing b c with
  | nil =>
    cases b with
    | nil => simp [strLtb] at h1
    | cons y ys =>
      cases c with
      | nil => simp [strLtb] at h2
      | cons z zs => simp [strLtb]
  | cons x xs ih =>
    cases b with
    | nil => simp [strLtb] at h1
    | cons y ys =>
      cases c with
      | nil => simp [strLtb] at h2
      | cons z zs =>
        simp only [strLtb] at h1 h2 ⊢
        split_ifs at h1 h2 ⊢
        all_goals first
          | rfl
          | (exact ih h1 h2)
          | (exfalso; omega)

theorem strLtb_neg_trans {a b c : List Char} (h1 : strLtb a b = false) (h2 : strLtb b c = false) :
    strLtb a c = false := by
  induction a generalizing b c with
  | nil =>
    cases b with
    | nil =>
      cases c with
      | nil => rfl
      | cons z zs => simp [strLtb] at h2
    | cons y ys => simp [strLtb] at h1
  | cons x xs ih =>
    cases b with
    | nil =>
      cases c with
      | nil => rfl
      | cons z zs => simp [strLtb] at h2
    | cons y ys =>
      cases c with
      | nil => rfl
      | cons z zs =>
        simp only [strLtb] at h1 h2 ⊢
        split_ifs at h1 h2 ⊢
        all_goals first
          | rfl
          | (exact ih h1 h2)
          | (exfalso; omega)

theorem strLtb_conn {a b : List Char} (h1 : strLtb a b = false) (h2 : strLtb b a = false) :
    a = b := by
  induction a generalizing b with
  | nil =>
    cases b with
    | nil => rfl
    | cons y ys => simp [strLtb] at h1
  | cons x xs ih =>
    cases b with
    | nil => simp [strLtb] at h2
    | cons y ys =>
      simp only [strLtb] at h1 h2
      split_ifs at h1 h2 with hx hy
      have hn : x.toNat = y.toNat := by omega
      have hchar : x = y := Char.ext (UInt32.ext hn)
      rw [hchar, ih h1 h2]

theorem strLt_irrefl (s : String) : strLt s s = false := strLtb_irrefl s.data

theorem strLt_trans {a b c : String} (h1 : strLt a b = true) (h2 : strLt b c = true) :
    strLt a c = true := strLtb_trans h1 h2

theorem strLt_neg_trans {a b c : String} (h1 : strLt a b = false) (h2 : strLt b c = false) :
    strLt a c = false := strLtb_neg_trans h1 h2

theorem strLt_conn {a b : String} (h1 : strLt a b = false) (h2 : strLt b a = false) : a = b := by
  cases a with
  | mk da =>
    cases b with
    | mk db => exact congrArg String.mk (strLtb_conn h1 h2)

theorem lessItem_irrefl (a : QItem) : lessItem a a = false := by
  simp [lessItem, strLt_irrefl]

theorem lessItem_trans {a b c : QItem} (h1 : lessItem a b = true) (h2 : lessItem b c = true) :
    lessItem a c = true := by
  simp only [lessItem] at h1 h2 ⊢
  split_ifs at h1 h2 ⊢
  all_goals try simp only [decide_eq_true_eq] at h1 h2 ⊢
  all_goals first
    | rfl
    | (exact strLt_trans h1 h2)
    | (exfalso; omega)
    | omega

theorem lessItem_neg_trans {a b c : QItem} (h1 : lessItem a b = false) (h2 : lessItem b c = false) :
    lessItem a c = false := by
  simp only [lessItem] at h1 h2 ⊢
  split_ifs at h1 h2 ⊢
  all_goals try simp only [decide_eq_true_eq, decide_eq_false_iff_not] at h1 h2 ⊢
  all_goals first
    | rfl
    | (exact strLt_neg_trans h1 h2)
    | (exfalso; omega)
    | omega

theorem lessItem_conn {a b : QItem} (h1 : lessItem a b = false) (h2 : lessItem b a = false) :
    a.priority = b.priority ∧ a.routePath = b.routePath := by
  simp only [lessItem] at h1 h2
  split_ifs at h1 h2
  all_goals try simp only [decide_eq_false_iff_not] at h1 h2
  all_goals first
    | (exact ⟨by omega, strLt_conn h1 h2⟩)
    | (exfalso; omega)


end Grazer

namespace Grazer

/-! Lemmas about `lookupPath` and `addOrUpdate`. -/

theorem lookupPath_some {q : Queue} {k : String} {e : QItem} (h : lookupPath q k = some e) :
    e.routePath = k ∧ e ∈ q.items := by
  refine ⟨?_, List.mem_of_find?_eq_some h⟩
  have := List.find?_some h
  simpa using this

theorem lookupPath_none {q : Queue} {k : String} :
    lookupPath q k = none ↔ ∀ e ∈ q.items, e.routePath ≠ k := by
  unfold lookupPath
  simp [List.find?_eq_none]

theorem lookupPath_mem {q : Queue} (hnd : keysNodup q) {k : String} {e : QItem}
    (he : e ∈ q.items) (hk : e.routePath = k) : lookupPath q k = some e := by
  cases hfind : lookupPath q k with
  | none => exact absurd hk (lookupPath_none.mp hfind e he)
  | some e' =>
    obtain ⟨hk', hm'⟩ := lookupPath_some hfind
    have : e' = e := List.inj_on_of_nodup_map hnd hm' he (by rw [hk, hk'])
    rw [this]

theorem lookupPath_counter (q : Queue) (c : Nat) (k : String) :
    lookupPath { q with currentPriority := c } k = lookupPath q k := rfl

theorem addOrUpdate_currentPriority (q : Queue) (k : String) (p : Nat) :
    (addOrUpdate q k p).currentPriority = q.currentPriority := by
  unfold addOrUpdate
  split
  · split <;> rfl
  · rfl

theorem lookupPath_mk (c : Nat) (items : List QItem) (k : String) :
    lookupPath { currentPriority := c, items := items } k
      = items.find? (fun e => e.routePath == k) := rfl

theorem lookupPath_eq_find? (q : Queue) (k : String) :
    lookupPath q k = q.items.find? (fun e => e.routePath == k) := rfl

theorem routePath_update (e : QItem) (k : String) (p : Nat) :
    ((if e.routePath == k then { e with priority := p } else e) : QItem).routePath
      = e.routePath := by
  by_cases h : e.routePath == k <;> simp [h]

theorem find?_update (items : List QItem) (k k' : String) (p : Nat) :
    (items.map (fun e => if e.routePath == k then { e with priority := p } else e)).find?
        (fun e => e.routePath == k')
      = (items.find? (fun e => e.routePath == k')).map
          (fun e => if e.routePath == k then { e with priority := p } else e) := by
  rw [List.find?_map]
  have hcomp : ((fun e : QItem => e.routePath == k') ∘
      fun e : QItem => if e.routePath == k then { e with priority := p } else e)
        = fun e : QItem => e.routePath == k' := by
    funext a
    by_cases hh : a.routePath == k <;> simp [Function.comp, hh]
  rw [hcomp]

theorem addOrUpdate_promote_eq {q : Queue} {k : String} {p : Nat} {e : QItem}
    (h : lookupPath q k = some e) (hc : e.priority = 0 ∧ p ≠ 0) :
    addOrUpdate q k p
      = { q with items := (q.items.map
            (fun e => if e.routePath == k then { e with priority := p } else e)) } := by
  unfold addOrUpdate
  simp only [h]
  rw [if_pos hc]

theorem addOrUpdate_push_eq {q : Queue} {k : String} (p : Nat)
    (h : lookupPath q k = none) :
    addOrUpdate q k p
      = { q with items := (q.items ++ [{ priority := p, routePath := k }]) } := by
  unfold addOrUpdate
  simp only [h]

theorem addOrUpdate_noop {q : Queue} {k : String} {p : Nat} {e : QItem}
    (h : lookupPath q k = some e) (hc : ¬(e.priority = 0 ∧ p ≠ 0)) :
    addOrUpdate q k p = q := by
  unfold addOrUpdate
  simp only [h]
  rw [if_neg hc]

theorem lookupPath_addOrUpdate_other (q : Queue) {k k' : String} (p : Nat) (hne : k' ≠ k) :
    lookupPath (addOrUpdate q k p) k' = lookupPath q k' := by
  rw [lookupPath_eq_find? q k']
  cases h : lookupPath q k with
  | some e =>
    by_cases hc : e.priority = 0 ∧ p ≠ 0
    · rw [addOrUpdate_promote_eq h hc]
      rw [lookupPath_mk]
      rw [find?_update]
      cases hf : q.items.find? (fun e => e.routePath == k') with
      | none => rfl
      | some e0 =>
        have he0 : e0.routePath = k' := by simpa using List.find?_some hf
        simp [Option.map, he0, hne]
    · rw [addOrUpdate_noop h hc, lookupPath_eq_find? q k']
  | none =>
    rw [addOrUpdate_push_eq p h]
    rw [lookupPath_mk]
    rw [List.find?_append]
    have hone : ([({ priority := p, routePath := k } : QItem)].find?
        (fun e => e.routePath == k')) = none := by
      simp only [List.find?]
      have : (({ priority := p, routePath := k } : QItem).routePath == k') = false := by
        simp only [beq_eq_false_iff_ne, ne_eq]
        exact fun hh => absurd hh.symm hne
      rw [this]
    rw [hone, Option.or_none]

theorem lookupPath_addOrUpdate_absent {q : Queue} {k : String} (p : Nat)
    (h : lookupPath q k = none) :
    lookupPath (addOrUpdate q k p) k = some { priority := p, routePath := k } := by
  rw [addOrUpdate_push_eq p h]
  rw [lookupPath_mk]
  rw [List.find?_append]
  have h' : q.items.find? (fun e => e.routePath == k) = none := h
  rw [h']
  simp [List.find?]

theorem lookupPath_addOrUpdate_promote {q : Queue} {k : String} {p : Nat} {e : QItem}
    (h : lookupPath q k = some e) (h0 : e.priority = 0) (hp : p ≠ 0) :
    lookupPath (addOrUpdate q k p) k = some { e with priority := p } := by
  have hk : e.routePath = k := (lookupPath_some h).1
  rw [addOrUpdate_promote_eq h ⟨h0, hp⟩]
  rw [lookupPath_mk]
  rw [find?_update]
  have h' : q.items.find? (fun e => e.routePath == k) = some e := h
  rw [h']
  simp [Option.map, hk]

theorem lookupPath_addOrUpdate_evolve {q : Queue} {k' : String} (k : String) (p : Nat)
    {a : QItem} (h : lookupPath q k' = some a) :
    lookupPath (addOrUpdate q k p) k' = some a ∨
      (a.priority = 0 ∧ p ≠ 0 ∧
        lookupPath (addOrUpdate q k p) k' = some { a with priority := p }) := by
  by_cases hk : k' = k
  · subst hk
    by_cases hc : a.priority = 0 ∧ p ≠ 0
    · exact Or.inr ⟨hc.1, hc.2, lookupPath_addOrUpdate_promote h hc.1 hc.2⟩
    · left
      rw [addOrUpdate_noop h hc]
      exact h
  · left
    rw [lookupPath_addOrUpdate_other q p hk]
    exact h

theorem addOrUpdate_preserves_nonzero {q : Queue} {k' : String} (k : String) (p : Nat)
    {a : QItem} (h : lookupPath q k' = some a) (hnz : a.priority ≠ 0) :
    lookupPath (addOrUpdate q k p) k' = some a := by
  rcases lookupPath_addOrUpdate_evolve k p h with h' | ⟨h0, _, _⟩
  · exact h'
  · exact absurd h0 hnz

theorem addOrUpdate_zero_preserves {q : Queue} {k' : String} (k : String)
    {a : QItem} (h : lookupPath q k' = some a) :
    lookupPath (addOrUpdate q k 0) k' = some a := by
  rcases lookupPath_addOrUpdate_evolve k 0 h with h' | ⟨_, h0, _⟩
  · exact h'
  · exact absurd rfl h0

/-! Lemmas about the two `foldl` passes of `enqueue`. -/

theorem foldl_add_currentPriority (l : List String) (q : Queue) (g : Nat) :
    (l.foldl (fun qq p => addOrUpdate qq p g) q).currentPriority = q.currentPriority := by
  induction l generalizing q with
  | nil => rfl
  | cons x xs ih => rw [List.foldl_cons, ih, addOrUpdate_currentPriority]

theorem foldl_add_preserves_nonzero {l : List String} {q : Queue} {g : Nat} {k : String}
    {a : QItem} (h : lookupPath q k = some a) (hnz : a.priority ≠ 0) :
    lookupPath (l.foldl (fun qq p => addOrUpdate qq p g) q) k = some a := by
  induction l generalizing q with
  | nil => exact h
  | cons x xs ih =>
    rw [List.foldl_cons]
    exact ih (addOrUpdate_preserves_nonzero x g h hnz)

theorem foldl_add_zero_preserves {l : List String} {q : Queue} {k : String}
    {a : QItem} (h : lookupPath q k = some a) :
    lookupPath (l.foldl (fun qq p => addOrUpdate qq p 0) q) k = some a := by
  induction l generalizing q with
  | nil => exact h
  | cons x xs ih =>
    rw [List.foldl_cons]
    exact ih (addOrUpdate_zero_preserves x h)

theorem foldl_add_evolve {l : List String} {q : Queue} {g : Nat} {k : String}
    {a : QItem} (h : lookupPath q k = some a) :
    lookupPath (l.foldl (fun qq p => addOrUpdate qq p g) q) k = some a ∨
      (a.priority = 0 ∧ g ≠ 0 ∧
        lookupPath (l.foldl (fun qq p => addOrUpdate qq p g) q) k
          = some { a with priority := g }) := by
  induction l generalizing q with
  | nil => exact Or.inl h
  | cons x xs ih =>
    rw [List.foldl_cons]
    rcases lookupPath_addOrUpdate_evolve x g h with h' | ⟨h0, hg, h'⟩
    · exact ih h'
    · right
      refine ⟨h0, hg, ?_⟩
      exact foldl_add_preserves_nonzero h' (by simpa using hg)

theorem foldl_add_none {l : List String} {q : Queue} {g : Nat} {k : String}
    (hk : k ∉ l) (h : lookupPath q k = none) :
    lookupPath (l.foldl (fun qq p => addOrUpdate qq p g) q) k = none := by
  induction l generalizing q with
  | nil => exact h
  | cons x xs ih =>
    rw [List.foldl_cons]
    have hxk : k ≠ x := fun hh => hk (hh ▸ List.mem_cons_self x xs)
    refine ih (fun hh => hk (List.mem_cons_of_mem x hh)) ?_
    rw [lookupPath_addOrUpdate_other q g hxk]
    exact h

theorem foldl_add_assign {l : List String} {q : Queue} {g : Nat} {k : String}
    (hg : g ≠ 0) (hk : k ∈ l)
    (h : lookupPath q k = none ∨ ∃ e, lookupPath q k = some e ∧ e.priority = 0) :
    lookupPath (l.foldl (fun qq p => addOrUpdate qq p g) q) k
      = some { priority := g, routePath := k } := by
  induction l generalizing q with
  | nil => cases hk
  | cons x xs ih =>
    rw [List.foldl_cons]
    by_cases hx : x = k
    · subst hx
      rcases h with h | ⟨e, he, h0⟩
      · have := lookupPath_addOrUpdate_absent g h
        exact foldl_add_preserves_nonzero this (by simpa using hg)
      · have hpath : e.routePath = x := (lookupPath_some he).1
        have := lookupPath_addOrUpdate_promote he h0 hg
        have heq : ({ e with priority := g } : QItem) = { priority := g, routePath := x } := by
          cases e
          simp_all
        rw [heq] at this
        exact foldl_add_preserves_nonzero this (by simpa using hg)
    · have hk' : k ∈ xs := by
        rcases List.mem_cons.mp hk with hh | hh
        · exact absurd hh.symm hx
        · exact hh
      refine ih hk' ?_
      have hkx : k ≠ x := fun hh => hx hh.symm
      rw [lookupPath_addOrUpdate_other q g hkx]
      exact h

theorem foldl_add_zero_insert {l : List String} {q : Queue} {k : String}
    (hk : k ∈ l) (h : lookupPath q k = none) :
    lookupPath (l.foldl (fun qq p => addOrUpdate qq p 0) q) k
      = some { priority := 0, routePath := k } := by
  induction l generalizing q with
  | nil => cases hk
  | cons x xs ih =>
    rw [List.foldl_cons]
    by_cases hx : x = k
    · subst hx
      exact foldl_add_zero_preserves (lookupPath_addOrUpdate_absent 0 h)
    · have hk' : k ∈ xs := by
        rcases List.mem_cons.mp hk with hh | hh
        · exact absurd hh.symm hx
        · exact hh
      refine ih hk' ?_
      have hkx : k ≠ x := fun hh => hx hh.symm
      rw [lookupPath_addOrUpdate_other q 0 hkx]
      exact h

/-! Lemmas about `enqueue`. -/

theorem enqueue_currentPriority (q : Queue) (inv bg : List String) :
    (enqueue q inv bg).currentPriority = (q.currentPriority + 1) % u64 := by
  unfold enqueue
  rw [foldl_add_currentPriority, foldl_add_currentPriority]

theorem enqueue_preserves_nonzero {q : Queue} {k : String} {e : QItem}
    (inv bg : List String) (h : lookupPath q k = some e) (hnz : e.priority ≠ 0) :
    lookupPath (enqueue q inv bg) k = some e := by
  unfold enqueue
  exact foldl_add_zero_preserves (foldl_add_preserves_nonzero h hnz)

theorem enqueue_evolve {q : Queue} {k : String} {a : QItem}
    (inv bg : List String) (h : lookupPath q k = some a) :
    lookupPath (enqueue q inv bg) k = some a ∨
      (a.priority = 0 ∧ (q.currentPriority + 1) % u64 ≠ 0 ∧
        lookupPath (enqueue q inv bg) k
          = some { a with priority := (q.currentPriority + 1) % u64 }) := by
  unfold enqueue
  rcases foldl_add_evolve
      (q := { q with currentPriority := (q.currentPriority + 1) % u64 })
      (l := inv) (g := (q.currentPriority + 1) % u64) h
    with h' | ⟨h0, hg, h'⟩
  · exact Or.inl (foldl_add_zero_preserves h')
  · exact Or.inr ⟨h0, hg, foldl_add_zero_preserves h'⟩

theorem enqueue_assign {q : Queue} {k : String} (inv bg : List String)
    (hg : (q.currentPriority + 1) % u64 ≠ 0) (hk : k ∈ inv)
    (h : lookupPath q k = none ∨ ∃ e, lookupPath q k = some e ∧ e.priority = 0) :
    lookupPath (enqueue q inv bg) k
      = some { priority := (q.currentPriority + 1) % u64, routePath := k } := by
  unfold enqueue
  refine foldl_add_preserves_nonzero ?_ (by simpa using hg)
  exact foldl_add_assign hg hk h

theorem enqueue_bg_zero {q : Queue} {k : String} (bg : List String)
    (hk : k ∈ bg) (h : lookupPath q k = none) :
    lookupPath (enqueue q [] bg) k = some { priority := 0, routePath := k } := by
  unfold enqueue
  exact foldl_add_zero_insert hk h

/-! Preservation of the unique-key invariant. -/

theorem addOrUpdate_nodup {q : Queue} (hnd : keysNodup q) (k : String) (p : Nat) :
    keysNodup (addOrUpdate q k p) := by
  cases h : lookupPath q k with
  | some e =>
    by_cases hc : e.priority = 0 ∧ p ≠ 0
    · rw [addOrUpdate_promote_eq h hc]
      unfold keysNodup at hnd ⊢
      rw [List.map_map]
      have hkeys : ((fun e : QItem => e.routePath) ∘
          fun e : QItem => if e.routePath == k then { e with priority := p } else e)
            = fun e : QItem => e.routePath := by
        funext a
        simp only [Function.comp]
        exact routePath_update a k p
      rw [hkeys]
      exact hnd
    · rw [addOrUpdate_noop h hc]
      exact hnd
  | none =>
    rw [addOrUpdate_push_eq p h]
    unfold keysNodup at hnd ⊢
    simp only [List.map_append, List.map_cons, List.map_nil, List.nodup_append]
    refine ⟨hnd, List.nodup_singleton _, ?_⟩
    intro a ha hb
    simp only [List.mem_singleton] at hb
    obtain ⟨e, he, hek⟩ := List.mem_map.mp ha
    rw [hb] at hek
    exact lookupPath_none.mp h e he hek

theorem foldl_add_nodup {l : List String} {q : Queue} {g : Nat} (hnd : keysNodup q) :
    keysNodup (l.foldl (fun qq p => addOrUpdate qq p g) q) := by
  induction l generalizing q with
  | nil => exact hnd
  | cons x xs ih =>
    rw [List.foldl_cons]
    exact ih (addOrUpdate_nodup hnd x g)

theorem enqueue_nodup {q : Queue} (hnd : keysNodup q) (inv bg : List String) :
    keysNodup (enqueue q inv bg) := by
  unfold enqueue
  exact foldl_add_nodup (foldl_add_nodup hnd)

/-! Lemmas about `selectMin` and `pop`. -/

theorem selectMin_perm (x : QItem) (l : List QItem) :
    List.Perm ((selectMin x l).1 :: (selectMin x l).2) (x :: l) := by
  induction l generalizing x with
  | nil => exact List.Perm.refl _
  | cons y ys ih =>
    unfold selectMin
    by_cases h : lessItem y x = true
    · rw [if_pos h]
      refine List.Perm.trans (List.Perm.swap x (selectMin y ys).1 (selectMin y ys).2) ?_
      exact (ih y).cons x
    · rw [if_neg h]
      refine List.Perm.trans (List.Perm.swap y (selectMin x ys).1 (selectMin x ys).2) ?_
      refine List.Perm.trans ((ih x).cons y) ?_
      exact List.Perm.swap x y ys

theorem selectMin_min (x : QItem) (l : List QItem) :
    ∀ e ∈ x :: l, lessItem e (selectMin x l).1 = false := by
  induction l generalizing x with
  | nil =>
    intro e he
    rcases List.mem_cons.mp he with h | h
    · rw [h]
      exact lessItem_irrefl _
    · cases h
  | cons y ys ih =>
    intro e he
    unfold selectMin
    by_cases h : lessItem y x = true
    · rw [if_pos h]
      have hy : ∀ e ∈ y :: ys, lessItem e (selectMin y ys).1 = false := ih y
      rcases List.mem_cons.mp he with hex | hey
      · subst hex
        have hyx : lessItem y (selectMin y ys).1 = false := hy y (List.mem_cons_self y ys)
        by_cases hxm : lessItem e (selectMin y ys).1 = true
        · exact absurd (lessItem_trans h hxm) (by simp [hyx])
        · simpa using hxm
      · rcases List.mem_cons.mp hey with hey' | hey''
        · subst hey'
          exact hy e (List.mem_cons_self e ys)
        · exact hy e (List.mem_cons_of_mem y hey'')
    · rw [if_neg h]
      have hx : ∀ e ∈ x :: ys, lessItem e (selectMin x ys).1 = false := ih x
      rcases List.mem_cons.mp he with hex | hey
      · subst hex
        exact hx e (List.mem_cons_self e ys)
      · rcases List.mem_cons.mp hey with hey' | hey''
        · subst hey'
          have hxm : lessItem x (selectMin x ys).1 = false := hx x (List.mem_cons_self x ys)
          have h' : lessItem e x = false := by simpa using h
          exact lessItem_neg_trans h' hxm
        · exact hx e (List.mem_cons_of_mem x hey'')

theorem pop_none_iff (q : Queue) : pop q = none ↔ q.items = [] := by
  unfold pop
  cases q.items <;> simp

theorem pop_some (q : Queue) {k : String} {q' : Queue} (h : pop q = some (k, q')) :
    ∃ m : QItem, m.routePath = k ∧ List.Perm (m :: q'.items) q.items ∧
      q'.currentPriority = q.currentPriority ∧
      ∀ e ∈ q.items, lessItem e m = false := by
  unfold pop at h
  cases hq : q.items with
  | nil => rw [hq] at h; cases h
  | cons x xs =>
    simp only [hq, Option.some.injEq, Prod.mk.injEq] at h
    obtain ⟨hk, hq'⟩ := h
    subst hq'
    refine ⟨(selectMin x xs).1, hk, ?_, rfl, ?_⟩
    · exact selectMin_perm x xs
    · intro e he
      exact selectMin_min x xs e he

theorem pop_nodup {q : Queue} (hnd : keysNodup q) {k : String} {q' : Queue}
    (h : pop q = some (k, q')) : keysNodup q' := by
  obtain ⟨m, _, hperm, _, _⟩ := pop_some q h
  unfold keysNodup at hnd ⊢
  have hp : List.Perm ((m :: q'.items).map (fun e => e.routePath))
      (q.items.map (fun e => e.routePath)) := hperm.map _
  have hnd' := hp.symm.nodup hnd
  simp only [List.map_cons] at hnd'
  exact hnd'.of_cons

theorem pop_removes {q : Queue} (hnd : keysNodup q) {k : String} {q' : Queue}
    (h : pop q = some (k, q')) : ∀ e ∈ q'.items, e.routePath ≠ k := by
  obtain ⟨m, hmk, hperm, _, _⟩ := pop_some q h
  intro e he hek
  unfold keysNodup at hnd
  have hp : List.Perm ((m :: q'.items).map (fun e => e.routePath))
      (q.items.map (fun e => e.routePath)) := hperm.map _
  have hnd' := hp.symm.nodup hnd
  simp only [List.map_cons] at hnd'
  have hmem : e.routePath ∈ q'.items.map (fun e => e.routePath) := List.mem_map_of_mem _ he
  rw [hek, ← hmk] at hmem
  exact (List.nodup_cons.mp hnd').1 hmem

theorem pop_lookup_other {q : Queue} (hnd : keysNodup q) {kp : String} {q' : Queue}
    (h : pop q = some (kp, q')) {k : String} (hne : k ≠ kp) :
    lookupPath q' k = lookupPath q k := by
  obtain ⟨m, hmk, hperm, _, _⟩ := pop_some q h
  have hnd' : keysNodup q' := pop_nodup hnd h
  cases hl : lookupPath q k with
  | none =>
    rw [lookupPath_none] at hl ⊢
    intro e he
    exact hl e (hperm.mem_iff.mp (List.mem_cons_of_mem m he))
  | some e =>
    obtain ⟨hek, hem⟩ := lookupPath_some hl
    have hem' : e ∈ m :: q'.items := hperm.mem_iff.mpr hem
    rcases List.mem_cons.mp hem' with hh | hh
    · rw [hh] at hek
      exact absurd (hek.symm.trans hmk) hne
    · exact lookupPath_mem hnd' hh hek

/-! Lemmas about operation sequences (`runOps`). -/

theorem runOps_counter {ops : List Op} {q : Queue}
    (h : q.currentPriority + countEnq ops < u64) :
    (runOps q ops).currentPriority = q.currentPriority + countEnq ops := by
  induction ops generalizing q with
  | nil => simp [runOps, countEnq]
  | cons op rest ih =>
    cases op with
    | enq inv bg =>
      have hcnt : countEnq (Op.enq inv bg :: rest) = countEnq rest + 1 := rfl
      rw [hcnt] at h ⊢
      have h1 : q.currentPriority + 1 < u64 := by omega
      have hc : (enqueue q inv bg).currentPriority = q.currentPriority + 1 := by
        rw [enqueue_currentPriority]
        exact Nat.mod_eq_of_lt h1
      have h2 : (enqueue q inv bg).currentPriority + countEnq rest < u64 := by
        rw [hc]
        omega
      simp only [runOps]
      rw [ih h2, hc]
      omega
    | dq =>
      have hcnt : countEnq (Op.dq :: rest) = countEnq rest := rfl
      rw [hcnt] at h ⊢
      cases hp : pop q with
      | none =>
        simp only [runOps, hp]
        exact ih h
      | some pr =>
        obtain ⟨k, q'⟩ := pr
        simp only [runOps, hp]
        obtain ⟨m, _, _, hcp, _⟩ := pop_some q hp
        rw [ih (by rw [hcp]; exact h), hcp]

theorem runOps_nodup {ops : List Op} {q : Queue} (hnd : keysNodup q) :
    keysNodup (runOps q ops) := by
  induction ops generalizing q with
  | nil => exact hnd
  | cons op rest ih =>
    cases op with
    | enq inv bg =>
      simp only [runOps]
      exact ih (enqueue_nodup hnd inv bg)
    | dq =>
      cases hp : pop q with
      | none =>
        simp only [runOps, hp]
        exact ih hnd
      | some pr =>
        obtain ⟨k, q'⟩ := pr
        simp only [runOps, hp]
        exact ih (pop_nodup hnd hp)

theorem runOps_preserves {ops : List Op} {q : Queue} {k : String} {e : QItem}
    (hnd : keysNodup q) (h : lookupPath q k = some e) (hnz : e.priority ≠ 0)
    (hnp : k ∉ popsOf q ops) :
    lookupPath (runOps q ops) k = some e := by
  induction ops generalizing q with
  | nil => exact h
  | cons op rest ih =>
    cases op with
    | enq inv bg =>
      simp only [runOps]
      have hnp' : k ∉ popsOf (enqueue q inv bg) rest := by
        simpa only [popsOf] using hnp
      exact ih (enqueue_nodup hnd inv bg) (enqueue_preserves_nonzero inv bg h hnz) hnp'
    | dq =>
      cases hp : pop q with
      | none =>
        simp only [runOps, hp]
        refine ih hnd h ?_
        simpa only [popsOf, hp] using hnp
      | some pr =>
        obtain ⟨kp, q'⟩ := pr
        simp only [runOps, hp]
        have hpops : popsOf q (Op.dq :: rest) = kp :: popsOf q' rest := by
          simp only [popsOf, hp]
        rw [hpops] at hnp
        have hkkp : k ≠ kp := fun hh => hnp (hh ▸ List.mem_cons_self kp _)
        have hnp' : k ∉ popsOf q' rest := fun hh => hnp (List.mem_cons_of_mem kp hh)
        refine ih (pop_nodup hnd hp) ?_ hnp'
        rw [pop_lookup_other hnd hp hkkp]
        exact h

/-! Machinery for duplicate-occurrence invariance of a single enqueue call. -/

/-- After a key has been processed once by `addOrUpdate` at priority `p`
inside an enqueue call, a later occurrence of the same key at the same
priority within that call is a no-op: the key is present, and if `p` is
non-zero the entry's priority is non-zero too. -/
def processedKey (p : Nat) (q : Queue) (k : String) : Prop :=
  ∃ e, lookupPath q k = some e ∧ (p ≠ 0 → e.priority ≠ 0)

theorem processedKey_addOrUpdate_self (q : Queue) (k : String) (p : Nat) :
    processedKey p (addOrUpdate q k p) k := by
  cases h : lookupPath q k with
  | none =>
    exact ⟨_, lookupPath_addOrUpdate_absent p h, fun hp => by simpa using hp⟩
  | some e =>
    by_cases hc : e.priority = 0 ∧ p ≠ 0
    · exact ⟨_, lookupPath_addOrUpdate_promote h hc.1 hc.2, fun _ => by simpa using hc.2⟩
    · refine ⟨e, ?_, ?_⟩
      · rw [addOrUpdate_noop h hc]
        exact h
      · intro hp h0
        exact hc ⟨h0, hp⟩

theorem processedKey_addOrUpdate (q : Queue) {k' : String} {p : Nat} (k : String) (p2 : Nat)
    (hP : processedKey p q k') : processedKey p (addOrUpdate q k p2) k' := by
  obtain ⟨e, he, hnz⟩ := hP
  rcases lookupPath_addOrUpdate_evolve k p2 he with h' | ⟨h0, hp2, h'⟩
  · exact ⟨e, h', hnz⟩
  · exact ⟨_, h', fun _ => by simpa using hp2⟩

theorem addOrUpdate_processed_noop {q : Queue} {k : String} {p : Nat}
    (hP : processedKey p q k) : addOrUpdate q k p = q := by
  obtain ⟨e, he, hnz⟩ := hP
  apply addOrUpdate_noop he
  rintro ⟨h0, hp⟩
  exact hnz hp h0

theorem foldl_add_dedupAux (g : Nat) (l : List String) (seen : List String) (q : Queue)
    (hseen : ∀ k ∈ seen, processedKey g q k) :
    l.foldl (fun qq p => addOrUpdate qq p g) q
      = (dedupFirstAux seen l).foldl (fun qq p => addOrUpdate qq p g) q := by
  induction l generalizing seen q with
  | nil => rfl
  | cons x xs ih =>
    rw [List.foldl_cons]
    unfold dedupFirstAux
    by_cases hx : x ∈ seen
    · rw [if_pos hx]
      rw [addOrUpdate_processed_noop (hseen x hx)]
      exact ih seen q hseen
    · rw [if_neg hx, List.foldl_cons]
      apply ih (x :: seen)
      intro k hk
      rcases List.mem_cons.mp hk with hh | hh
      · exact hh ▸ processedKey_addOrUpdate_self q x g
      · exact processedKey_addOrUpdate q x g (hseen k hh)

theorem enqueue_dedup_eq (q : Queue) (inv bg : List String) :
    enqueue q inv bg = enqueue q (dedupFirst inv) (dedupFirst bg) := by
  simp only [enqueue, dedupFirst]
  rw [← foldl_add_dedupAux ((q.currentPriority + 1) % u64) inv []
    { q with currentPriority := (q.currentPriority + 1) % u64 }
    (by intro k hk; exact absurd hk (List.not_mem_nil k))]
  rw [← foldl_add_dedupAux 0 bg []
    (inv.foldl (fun qq p => addOrUpdate qq p ((q.currentPriority + 1) % u64))
      { q with currentPriority := (q.currentPriority + 1) % u64 })
    (by intro k hk; exact absurd hk (List.not_mem_nil k))]

theorem lessItem_nonzero_lt {a b : QItem} (ha : a.priority ≠ 0) (hb : b.priority ≠ 0)
    (hab : a.priority < b.priority) : lessItem a b = true := by
  unfold lessItem
  rw [if_neg (by omega), if_neg ha, if_neg hb]
  simpa using hab

/-! Claim theorems. -/

/-- C1: for every sequence of enqueue and pop calls, the queue never holds two
live entries with the same key at the same time; a pop removes the returned
key entirely from the queue. -/
theorem queue_key_uniqueness (q : Queue) (hq : Reachable q) :
    keysNodup q ∧ ∀ k q', pop q = some (k, q') → ∀ e ∈ q'.items, e.routePath ≠ k := by
  have hnd : keysNodup q := by
    induction hq with
    | init => simp [keysNodup, newQueue]
    | enq q0 inv bg hq0 ih => exact enqueue_nodup ih inv bg
    | popped q0 k q' hq0 hpop ih => exact pop_nodup ih hpop
  exact ⟨hnd, fun k q' hpop => pop_removes hnd hpop⟩

/-- Witness for C1 at a concrete reachable state. -/
theorem queue_key_uniqueness_witness :
    Reachable (enqueue newQueue ["/a"] ["/b"]) ∧
      (keysNodup (enqueue newQueue ["/a"] ["/b"]) ∧
        ∀ k q', pop (enqueue newQueue ["/a"] ["/b"]) = some (k, q') →
          ∀ e ∈ q'.items, e.routePath ≠ k) :=
  ⟨Reachable.enq newQueue ["/a"] ["/b"] Reachable.init,
    queue_key_uniqueness (enqueue newQueue ["/a"] ["/b"])
      (Reachable.enq newQueue ["/a"] ["/b"] Reachable.init)⟩

/-- C2: once a key holds a non-zero priority, no enqueue call changes it
(whether the key is listed as invalidated or background), and the only
mutation an enqueue can apply to a queued entry is the one-way promotion from
priority 0 to the call's non-zero generation. -/
theorem priority_monotonicity (q : Queue) (inv bg : List String) (k : String) (e : QItem)
    (h : lookupPath q k = some e) :
    (e.priority ≠ 0 → lookupPath (enqueue q inv bg) k = some e) ∧
    (∀ e', lookupPath (enqueue q inv bg) k = some e' →
      e' = e ∨ (e.priority = 0 ∧ e'.priority ≠ 0 ∧ e'.routePath = e.routePath)) := by
  constructor
  · intro hnz
    exact enqueue_preserves_nonzero inv bg h hnz
  · intro e' h'
    rcases enqueue_evolve inv bg h with h2 | ⟨h0, hg, h2⟩
    · exact Or.inl (Option.some.inj (h'.symm.trans h2))
    · have he' : e' = { e with priority := (q.currentPriority + 1) % u64 } :=
        Option.some.inj (h'.symm.trans h2)
      right
      refine ⟨h0, ?_, ?_⟩
      · rw [he']
        simpa using hg
      · rw [he']

/-- Witness for C2 at a concrete queue. -/
theorem priority_monotonicity_witness :
    lookupPath qMono "/a" = some eMono ∧
      ((eMono.priority ≠ 0 →
          lookupPath (enqueue qMono ["/a"] ["/b"]) "/a" = some eMono) ∧
        (∀ e', lookupPath (enqueue qMono ["/a"] ["/b"]) "/a" = some e' →
          e' = eMono ∨
            (eMono.priority = 0 ∧ e'.priority ≠ 0 ∧ e'.routePath = eMono.routePath))) :=
  ⟨rfl, priority_monotonicity qMono ["/a"] ["/b"] "/a" eMono rfl⟩

/-- C5: `controller.revalidate` with a failing inventory fetch returns the
wrapped error to its caller and performs no enqueue and no wake signal: the
returned controller state (queue entries, generation counter and wake
channel) is the input state itself. -/
theorem revalidate_fetch_error_frame (s : CState) (err : String)
    (docs : List RevalidateRequestDocument) :
    revalidateStep s (Except.error err) docs
      = Except.ok (some ("listing documents: " ++ err), s) := rfl

/-- C9: an enqueue with an empty invalidated list still advances the
generation counter by one (uint64 increment, stated below the wrap bound),
leaves every existing entry untouched, inserts absent background keys with
priority 0, and popping an empty queue returns the empty signal rather than
an error. -/
theorem empty_invalidated_frame (q : Queue) (bg : List String)
    (hc : q.currentPriority + 1 < u64) :
    (enqueue q [] bg).currentPriority = q.currentPriority + 1 ∧
    (∀ k e, lookupPath q k = some e → lookupPath (enqueue q [] bg) k = some e) ∧
    (∀ k, k ∈ bg → lookupPath q k = none →
      lookupPath (enqueue q [] bg) k = some { priority := 0, routePath := k }) ∧
    (∀ qq : Queue, qq.items = [] → pop qq = none) := by
  refine ⟨?_, ?_, ?_, ?_⟩
  · rw [enqueue_currentPriority]
    exact Nat.mod_eq_of_lt hc
  · intro k e h
    simp only [enqueue, List.foldl_nil]
    exact foldl_add_zero_preserves
      (q := { q with currentPriority := (q.currentPriority + 1) % u64 }) h
  · intro k hk h
    exact enqueue_bg_zero bg hk h
  · intro qq h
    exact (pop_none_iff qq).mpr h

/-- Witness for C9 at a concrete queue. -/
theorem empty_invalidated_frame_witness :
    newQueue.currentPriority + 1 < u64 ∧
      ((enqueue newQueue [] ["/a"]).currentPriority = newQueue.currentPriority + 1 ∧
      (∀ k e, lookupPath newQueue k = some e →
        lookupPath (enqueue newQueue [] ["/a"]) k = some e) ∧
      (∀ k, k ∈ ["/a"] → lookupPath newQueue k = none →
        lookupPath (enqueue newQueue [] ["/a"]) k = some { priority := 0, routePath := k }) ∧
      (∀ qq : Queue, qq.items = [] → pop qq = none)) :=
  ⟨by decide, empty_invalidated_frame newQueue ["/a"] (by decide)⟩

/-- C10: duplicate occurrences of a key inside a single enqueue call are
no-ops beyond the first processed occurrence: the call produces exactly the
state of the same call with each of its two lists deduplicated (keeping first
occurrences; the invalidated list is processed first, so a key named in both
lists gets the call's non-zero generation). -/
theorem enqueue_dedup_invariance (q : Queue) (inv bg : List String) :
    enqueue q inv bg = enqueue q (dedupFirst inv) (dedupFirst bg) :=
  enqueue_dedup_eq q inv bg

/-- C8: the interleaved scenario from the spec (and queue_test.go,
"intermittent 1"): after the first enqueue the first pop yields "/contact";
after the second enqueue the remaining pops yield "/support", "/contact",
"/imprint", "/about", "/home", and then the queue is empty. -/
theorem interleaved_scenario :
    popKey (enqueue newQueue ["/contact", "/support"] ["/about", "/home", "/imprint"])
        = some "/contact" ∧
    drainFuel 6 (enqueue (popRest (enqueue newQueue ["/contact", "/support"]
          ["/about", "/home", "/imprint"])) ["/imprint", "/contact"]
          ["/about", "/home", "/support"])
      = ["/support", "/contact", "/imprint", "/about", "/home"] ∧
    pop (popRest (popRest (popRest (popRest (popRest
        (enqueue (popRest (enqueue newQueue ["/contact", "/support"]
          ["/about", "/home", "/imprint"])) ["/imprint", "/contact"]
          ["/about", "/home", "/support"])))))) = none :=
  ⟨rfl, rfl, rfl⟩

/-- C3: on a non-empty queue (with the unique-key invariant), pop returns
the minimum entry under the composite order of `queueItems.Less`: it is
strictly less than every other entry; consequently a zero-priority entry
never pops while a non-zero-priority entry is present, lower numeric
priority pops first among non-zero entries, and ties of equal priority are
broken by lexicographic order of the keys. -/
theorem pop_composite_minimum (q : Queue) (hne : q.items ≠ []) (hnd : keysNodup q) :
    ∃ m q', pop q = some (m.routePath, q') ∧ m ∈ q.items ∧
      (∀ e ∈ q.items, e.routePath ≠ m.routePath → lessItem m e = true) ∧
      ((∃ e ∈ q.items, e.priority ≠ 0) → m.priority ≠ 0) ∧
      (∀ e ∈ q.items, e.routePath ≠ m.routePath → m.priority ≠ 0 → e.priority ≠ 0 →
        m.priority ≤ e.priority) ∧
      (∀ e ∈ q.items, e.routePath ≠ m.routePath → e.priority = m.priority →
        strLt m.routePath e.routePath = true) := by
  obtain ⟨x, xs, hitems⟩ : ∃ x xs, q.items = x :: xs := by
    cases hq : q.items with
    | nil => exact absurd hq hne
    | cons a as => exact ⟨a, as, rfl⟩
  have hpop : pop q
      = some ((selectMin x xs).1.routePath, { q with items := (selectMin x xs).2 }) := by
    unfold pop
    simp only [hitems]
  have hmin : ∀ e ∈ q.items, lessItem e (selectMin x xs).1 = false := by
    rw [hitems]
    exact selectMin_min x xs
  have hmem : (selectMin x xs).1 ∈ q.items := by
    rw [hitems]
    exact (selectMin_perm x xs).mem_iff.mp (List.mem_cons_self _ _)
  have hstrict : ∀ e ∈ q.items, e.routePath ≠ (selectMin x xs).1.routePath →
      lessItem (selectMin x xs).1 e = true := by
    intro e he hne'
    by_cases hh : lessItem (selectMin x xs).1 e = true
    · exact hh
    · have h1 : lessItem (selectMin x xs).1 e = false := by simpa using hh
      obtain ⟨hp, hpath⟩ := lessItem_conn h1 (hmin e he)
      exact absurd hpath.symm hne'
  refine ⟨(selectMin x xs).1, { q with items := (selectMin x xs).2 }, hpop, hmem,
    hstrict, ?_, ?_, ?_⟩
  · rintro ⟨e, he, henz⟩
    by_cases hpath : e.routePath = (selectMin x xs).1.routePath
    · have he' : e = (selectMin x xs).1 := List.inj_on_of_nodup_map hnd he hmem hpath
      rw [← he']
      exact henz
    · have hl := hstrict e he hpath
      intro hm0
      unfold lessItem at hl
      by_cases hpq : (selectMin x xs).1.priority = e.priority
      · exact henz (hpq ▸ hm0)
      · rw [if_neg hpq, if_pos hm0] at hl
        cases hl
  · intro e he hpath hmnz henz
    have hl := hstrict e he hpath
    unfold lessItem at hl
    by_cases hpq : (selectMin x xs).1.priority = e.priority
    · omega
    · rw [if_neg hpq, if_neg hmnz, if_neg henz] at hl
      have : (selectMin x xs).1.priority < e.priority := by simpa using hl
      omega
  · intro e he hpath hpq
    have hl := hstrict e he hpath
    unfold lessItem at hl
    rw [if_pos hpq.symm] at hl
    exact hl

/-- Witness for C3 at a concrete mixed queue. -/
theorem pop_composite_minimum_witness :
    (qMix.items ≠ [] ∧ keysNodup qMix) ∧
      (∃ m q', pop qMix = some (m.routePath, q') ∧ m ∈ qMix.items ∧
        (∀ e ∈ qMix.items, e.routePath ≠ m.routePath → lessItem m e = true) ∧
        ((∃ e ∈ qMix.items, e.priority ≠ 0) → m.priority ≠ 0) ∧
        (∀ e ∈ qMix.items, e.routePath ≠ m.routePath → m.priority ≠ 0 → e.priority ≠ 0 →
          m.priority ≤ e.priority) ∧
        (∀ e ∈ qMix.items, e.routePath ≠ m.routePath → e.priority = m.priority →
          strLt m.routePath e.routePath = true)) :=
  ⟨⟨by decide, by decide⟩, pop_composite_minimum qMix (by decide) (by decide)⟩

/-- C7 (evidence of the code bug): the shutdown close and the wake try-send
both fault after a first shutdown. A second `shutdownAndWait` panics
("close of closed channel"), and a wake signal issued after shutdown panics
as well, because the select's send case on a closed channel is ready and
proceeds by panicking rather than falling to `default`; the claimed
idempotent no-op behavior does not hold. -/
theorem shutdown_not_idempotent_panics :
    closeSig (initialCState 1) = Except.ok closedCState ∧
    closeSig closedCState = Except.error "close of closed channel" ∧
    ensureProcessQueue closedCState = Except.error "send on closed channel" :=
  ⟨rfl, rfl, rfl⟩

/-- C6 (evidence of the code bug): the wake channel is unbuffered, so a wake
try-send arriving in the window after the worker observed an empty batch and
left the drain loop, but before it blocked on the outer receive, is dropped.
After the schedule below, the enqueue of "/b" has completed together with
its wake attempt, yet the queue still holds "/b", the channel is open, the
worker is blocked at the outer receive, and it has no autonomous step: no
further drain pass is attempted and the enqueued work stays undrained while
the worker sleeps. -/
theorem lost_wakeup_after_drain :
    runEvents (initialCState 1)
        [Ev.enq ["/a"] [], Ev.wstep, Ev.wstep, Ev.wstep, Ev.enq ["/b"] [], Ev.wstep]
      = Except.ok lostWakeState ∧
    lostWakeState.q.items = [{ priority := 2, routePath := "/b" }] ∧
    lostWakeState.closed = false ∧
    lostWakeState.wpc = WPC.outerWait ∧
    workerStep lostWakeState = none :=
  ⟨rfl, rfl, rfl, rfl, rfl⟩

/-- C4: across two enqueue calls, a key first assigned its non-zero priority
by the earlier call N (it was absent or backlog before the call, and is not
popped in between) keeps generation `gN`; a key first assigned by the later
call M gets generation `gM > gN`; as long as both are live, no pop returns
the call-M key, so the call-N key pops first. The exception clause: a key
listed by call M that was already queued with an earlier non-zero priority
keeps that earlier priority unchanged through call M (it pops in the
position of that earlier priority). The counter bound `hc` rules out uint64
wraparound of the generation counter. -/
theorem generation_ordering (q0 : Queue) (invN bgN : List String) (ops : List Op)
    (invM bgM : List String) (kN kM : String)
    (hnd : keysNodup q0)
    (hc : q0.currentPriority + countEnq ops + 2 < u64)
    (hkN : kN ∈ invN)
    (hfreshN : lookupPath q0 kN = none ∨ ∃ e, lookupPath q0 kN = some e ∧ e.priority = 0)
    (hnp : kN ∉ popsOf (enqueue q0 invN bgN) ops)
    (hkM : kM ∈ invM)
    (hfreshM : lookupPath (runOps (enqueue q0 invN bgN) ops) kM = none ∨
      ∃ e, lookupPath (runOps (enqueue q0 invN bgN) ops) kM = some e ∧ e.priority = 0) :
    q0.currentPriority + 1 < q0.currentPriority + countEnq ops + 2 ∧
    lookupPath (enqueue (runOps (enqueue q0 invN bgN) ops) invM bgM) kN
      = some { priority := q0.currentPriority + 1, routePath := kN } ∧
    lookupPath (enqueue (runOps (enqueue q0 invN bgN) ops) invM bgM) kM
      = some { priority := q0.currentPriority + countEnq ops + 2, routePath := kM } ∧
    keysNodup (enqueue (runOps (enqueue q0 invN bgN) ops) invM bgM) ∧
    (∀ qq : Queue, keysNodup qq →
      lookupPath qq kN = some { priority := q0.currentPriority + 1, routePath := kN } →
      lookupPath qq kM
        = some { priority := q0.currentPriority + countEnq ops + 2, routePath := kM } →
      ∀ r q2, pop qq = some (r, q2) → r ≠ kM) ∧
    (∀ k e, k ∈ invM →
      lookupPath (runOps (enqueue q0 invN bgN) ops) k = some e → e.priority ≠ 0 →
      lookupPath (enqueue (runOps (enqueue q0 invN bgN) ops) invM bgM) k = some e) := by
  have hu : 4 ≤ u64 := by
    unfold u64
    norm_num
  have hgNlt : q0.currentPriority + 1 < u64 := by omega
  have hgNmod : (q0.currentPriority + 1) % u64 = q0.currentPriority + 1 :=
    Nat.mod_eq_of_lt hgNlt
  have hgN0 : q0.currentPriority + 1 ≠ 0 := by omega
  have hndN : keysNodup (enqueue q0 invN bgN) := enqueue_nodup hnd invN bgN
  have hassignN : lookupPath (enqueue q0 invN bgN) kN
      = some { priority := q0.currentPriority + 1, routePath := kN } := by
    have h := enqueue_assign invN bgN (by rw [hgNmod]; exact hgN0) hkN hfreshN
    rw [hgNmod] at h
    exact h
  have hcN : (enqueue q0 invN bgN).currentPriority = q0.currentPriority + 1 := by
    rw [enqueue_currentPriority, hgNmod]
  have hbound : (enqueue q0 invN bgN).currentPriority + countEnq ops < u64 := by
    rw [hcN]
    omega
  have hMidc := runOps_counter hbound
  rw [hcN] at hMidc
  have hndMid : keysNodup (runOps (enqueue q0 invN bgN) ops) := runOps_nodup hndN
  have hpersist : lookupPath (runOps (enqueue q0 invN bgN) ops) kN
      = some { priority := q0.currentPriority + 1, routePath := kN } :=
    runOps_preserves hndN hassignN (by simpa using hgN0) hnp
  have hgMmod : ((runOps (enqueue q0 invN bgN) ops).currentPriority + 1) % u64
      = q0.currentPriority + countEnq ops + 2 := by
    rw [hMidc]
    have harith : q0.currentPriority + 1 + countEnq ops + 1
        = q0.currentPriority + countEnq ops + 2 := by omega
    rw [harith]
    exact Nat.mod_eq_of_lt (by omega)
  have hassignM : lookupPath (enqueue (runOps (enqueue q0 invN bgN) ops) invM bgM) kM
      = some { priority := q0.currentPriority + countEnq ops + 2, routePath := kM } := by
    have h := enqueue_assign invM bgM (by rw [hgMmod]; omega) hkM hfreshM
    rw [hgMmod] at h
    exact h
  have hkNM : lookupPath (enqueue (runOps (enqueue q0 invN bgN) ops) invM bgM) kN
      = some { priority := q0.currentPriority + 1, routePath := kN } :=
    enqueue_preserves_nonzero invM bgM hpersist (by simpa using hgN0)
  have hndM : keysNodup (enqueue (runOps (enqueue q0 invN bgN) ops) invM bgM) :=
    enqueue_nodup hndMid invM bgM
  refine ⟨by omega, hkNM, hassignM, hndM, ?_, ?_⟩
  · intro qq hqq hN hM r q2 hpop hrm
    obtain ⟨m, hmk, hperm, _, hmin⟩ := pop_some qq hpop
    obtain ⟨heMk, heMmem⟩ := lookupPath_some hM
    obtain ⟨heNk, heNmem⟩ := lookupPath_some hN
    have hmmem : m ∈ qq.items := hperm.mem_iff.mp (List.mem_cons_self _ _)
    have hmeq : m = { priority := q0.currentPriority + countEnq ops + 2, routePath := kM } :=
      List.inj_on_of_nodup_map hqq hmmem heMmem (by rw [hmk, hrm])
    have hless := hmin _ heNmem
    rw [hmeq] at hless
    have hlt : lessItem { priority := q0.currentPriority + 1, routePath := kN }
        { priority := q0.currentPriority + countEnq ops + 2, routePath := kM } = true := by
      apply lessItem_nonzero_lt
      · show q0.currentPriority + 1 ≠ 0
        omega
      · show q0.currentPriority + countEnq ops + 2 ≠ 0
        omega
      · show q0.currentPriority + 1 < q0.currentPriority + countEnq ops + 2
        omega
    rw [hless] at hlt
    cases hlt
  · intro k e hkM2 hlook hnz
    exact enqueue_preserves_nonzero invM bgM hlook hnz

/-- Witness for C4 at a concrete two-call scenario. -/
theorem generation_ordering_witness :
    (keysNodup newQueue ∧
      newQueue.currentPriority + countEnq [] + 2 < u64 ∧
      "/n" ∈ ["/n"] ∧
      "/n" ∉ popsOf (enqueue newQueue ["/n"] []) [] ∧
      "/m" ∈ ["/m"]) ∧
    (newQueue.currentPriority + 1 < newQueue.currentPriority + countEnq [] + 2 ∧
      lookupPath (enqueue (runOps (enqueue newQueue ["/n"] []) []) ["/m"] []) "/n"
        = some { priority := newQueue.currentPriority + 1, routePath := "/n" } ∧
      lookupPath (enqueue (runOps (enqueue newQueue ["/n"] []) []) ["/m"] []) "/m"
        = some { priority := newQueue.currentPriority + countEnq [] + 2, routePath := "/m" } ∧
      keysNodup (enqueue (runOps (enqueue newQueue ["/n"] []) []) ["/m"] []) ∧
      (∀ qq : Queue, keysNodup qq →
        lookupPath qq "/n"
          = some { priority := newQueue.currentPriority + 1, routePath := "/n" } →
        lookupPath qq "/m"
          = some { priority := newQueue.currentPriority + countEnq [] + 2, routePath := "/m" } →
        ∀ r q2, pop qq = some (r, q2) → r ≠ "/m") ∧
      (∀ k e, k ∈ ["/m"] →
        lookupPath (runOps (enqueue newQueue ["/n"] []) []) k = some e → e.priority ≠ 0 →
        lookupPath (enqueue (runOps (enqueue newQueue ["/n"] []) []) ["/m"] []) k = some e)) :=
  ⟨⟨by decide, by decide, by decide, by decide, by decide⟩,
    generation_ordering newQueue ["/n"] [] [] ["/m"] [] "/n" "/m" (by decide) (by decide)
      (by decide) (Or.inl (by decide)) (by decide) (by decide) (Or.inl (by decide))⟩

end Grazer
